import Mathlib

/-!
Verification of the multi-adapter vLLM hosting repository.

The repository consists of a Jupyter notebook driving deployment and a toy
multi-threaded benchmark, a Dockerfile that patches two URL routes of a
third-party server via `sed`, and a shell entrypoint assembling a launch
command from environment variables.  Strings are embedded as `List Char`,
the benchmark harness as explicit transition systems, and the `sed`/shell
string operations as executable functions on character lists.
-/

/-! ## Generic list decomposition lemmas -/

/-- A prefix of an append is a prefix of the left part, or extends it. -/
theorem prefix_append_cases {p a b : List Char} (h : p <+: a ++ b) :
    p <+: a ∨ ∃ q, p = a ++ q ∧ q <+: b := by
  obtain ⟨t, ht⟩ := h
  by_cases hle : p.length ≤ a.length
  · left
    have h1 : (p ++ t).take p.length = (a ++ b).take p.length := by rw [ht]
    rw [List.take_left, List.take_append_of_le_length hle] at h1
    rw [h1]
    exact a.take_prefix p.length
  · right
    push_neg at hle
    refine ⟨p.drop a.length, ?_, ?_⟩
    · have h1 : (p ++ t).take a.length = (a ++ b).take a.length := by rw [ht]
      rw [List.take_left] at h1
      have ha : p.take a.length = a :=
        (List.take_append_of_le_length (Nat.le_of_lt hle)).symm.trans h1
      conv_lhs => rw [← List.take_append_drop a.length p]
      rw [ha]
    · have h2 : (p ++ t).drop a.length = (a ++ b).drop a.length := by rw [ht]
      rw [List.drop_left] at h2
      have hb : p.drop a.length ++ t = b :=
        (List.drop_append_of_le_length (Nat.le_of_lt hle)).symm.trans h2
      exact ⟨t, hb⟩

/-- An infix of an append lies in the left part, in the right part, or
straddles the boundary. -/
theorem infix_append_cases {p : List Char} :
    ∀ {a b : List Char}, p <:+: a ++ b →
    p <:+: a ∨ p <:+: b ∨
      ∃ x y, p = x ++ y ∧ x ≠ [] ∧ y ≠ [] ∧ x <:+ a ∧ y <+: b := by
  intro a
  induction a with
  | nil => intro b h; exact Or.inr (Or.inl h)
  | cons c a' ih =>
    intro b h
    rcases List.infix_cons_iff.mp h with hpre | hinf
    · cases p with
      | nil => exact Or.inl List.nil_infix
      | cons d p' =>
        obtain ⟨hd, hp'⟩ := List.cons_prefix_cons.mp hpre
        subst hd
        rcases prefix_append_cases hp' with h1 | ⟨q, hq, hqb⟩
        · exact Or.inl (List.cons_prefix_cons.mpr ⟨rfl, h1⟩).isInfix
        · cases q with
          | nil =>
            rw [List.append_nil] at hq
            subst hq
            exact Or.inl List.infix_rfl
          | cons e q' =>
            refine Or.inr (Or.inr ⟨d :: a', e :: q', ?_, by simp, by simp,
              List.suffix_rfl, hqb⟩)
            rw [hq]
            rfl
    · rcases ih hinf with h1 | h2 | ⟨x, y, hxy, hx, hy, hxa, hyb⟩
      · exact Or.inl (List.infix_cons h1)
      · exact Or.inr (Or.inl h2)
      · exact Or.inr (Or.inr ⟨x, y, hxy, hx, hy, hxa.trans (List.suffix_cons c a'), hyb⟩)

/-! ## Global string replacement (`sed s|pat|rep|g` on a line, literal pattern)

`replaceAll pat rep s` replaces every occurrence of `pat` in `s` by `rep`,
scanning left to right and skipping over each replacement, exactly as
`sed`'s global substitute does for a literal pattern. -/

def replaceAll (pat rep : List Char) : List Char → List Char
  | [] => []
  | c :: rest =>
    if h : pat ≠ [] ∧ pat <+: (c :: rest) then
      rep ++ replaceAll pat rep ((c :: rest).drop pat.length)
    else
      c :: replaceAll pat rep rest
termination_by s => s.length
decreasing_by
  · have hp : 0 < pat.length := List.length_pos.mpr h.1
    simp only [List.length_drop, List.length_cons]
    omega
  · simp

/-- A string with no occurrence of the pattern is left unchanged. -/
theorem replaceAll_of_not_infix {pat : List Char} (rep : List Char) :
    ∀ {s : List Char}, ¬ pat <:+: s → replaceAll pat rep s = s := by
  intro s
  induction s with
  | nil => intro _; rw [replaceAll]
  | cons c rest ih =>
    intro hs
    rw [replaceAll, dif_neg, ih (fun h => hs (List.infix_cons h))]
    rintro ⟨-, hpre⟩
    exact hs hpre.isInfix

/-- Every prefix of `replaceAll pat rep s` is a prefix of `s`, or a prefix of
`s` followed by a nonempty prefix of `rep`, or reaches past a whole copy of
`rep`. -/
theorem prefix_replaceAll_cases (pat rep : List Char) :
    ∀ s q : List Char, q <+: replaceAll pat rep s →
      q <+: s ∨
      (∃ v w, q = v ++ w ∧ v <+: s ∧ w ≠ [] ∧ w <+: rep) ∨
      (∃ v r, q = v ++ rep ++ r) := by
  suffices H : ∀ n s q, s.length ≤ n → q <+: replaceAll pat rep s →
      q <+: s ∨
      (∃ v w, q = v ++ w ∧ v <+: s ∧ w ≠ [] ∧ w <+: rep) ∨
      (∃ v r, q = v ++ rep ++ r) by
    intro s q hq
    exact H s.length s q le_rfl hq
  intro n
  induction n with
  | zero =>
    intro s q hs hq
    cases s with
    | nil => rw [replaceAll] at hq; exact Or.inl hq
    | cons c rest => simp at hs
  | succ n ih =>
    intro s q hs hq
    cases s with
    | nil => rw [replaceAll] at hq; exact Or.inl hq
    | cons c rest =>
      by_cases hm : pat ≠ [] ∧ pat <+: (c :: rest)
      · rw [replaceAll, dif_pos hm] at hq
        rcases prefix_append_cases hq with h1 | ⟨q2, hq2, hq2b⟩
        · rcases eq_or_ne q [] with hq0 | hq0
          · subst hq0; exact Or.inl ⟨c :: rest, rfl⟩
          · exact Or.inr (Or.inl ⟨[], q, by simp, ⟨c :: rest, rfl⟩, hq0, h1⟩)
        · exact Or.inr (Or.inr ⟨[], q2, by simp [hq2]⟩)
      · rw [replaceAll, dif_neg hm] at hq
        cases q with
        | nil => exact Or.inl ⟨c :: rest, rfl⟩
        | cons d q' =>
          obtain ⟨hd, hq'⟩ := List.cons_prefix_cons.mp hq
          have hrest : rest.length ≤ n := by simp at hs; omega
          rcases ih rest q' hrest hq' with h1 | ⟨v, w, hvw, hv, hw, hwr⟩ | ⟨v, r, hvr⟩
          · exact Or.inl (List.cons_prefix_cons.mpr ⟨hd, h1⟩)
          · exact Or.inr (Or.inl ⟨d :: v, w, by rw [hvw]; rfl,
              List.cons_prefix_cons.mpr ⟨hd, hv⟩, hw, hwr⟩)
          · exact Or.inr (Or.inr ⟨d :: v, r, by rw [hvr]; rfl⟩)

/-- Under boundary conditions relating `p`, `pat` and `rep`, the output of
`replaceAll pat rep` contains no occurrence of `p`: neither inside a copy of
`rep`, nor straddling a boundary, nor (when `p = pat`, or `s` was already
`p`-free) verbatim. -/
theorem not_infix_replaceAll (pat rep p : List Char) (hp : p ≠ []) (hpat : pat ≠ [])
    (hA : ¬ p <:+: rep)
    (hB : ∀ i, i < rep.length → ¬ rep.drop i <+: p)
    (hC : ∀ i, i ≤ rep.length → 0 < i → ¬ rep.take i <:+ p)
    (hD : ¬ rep <:+: p) :
    ∀ s, (¬ p <:+: s ∨ p = pat) → ¬ p <:+: replaceAll pat rep s := by
  suffices H : ∀ n s, s.length ≤ n → (¬ p <:+: s ∨ p = pat) →
      ¬ p <:+: replaceAll pat rep s by
    intro s hsf
    exact H s.length s le_rfl hsf
  intro n
  induction n with
  | zero =>
    intro s hs _ hcontra
    cases s with
    | nil => rw [replaceAll] at hcontra; exact hp (List.infix_nil.mp hcontra)
    | cons c rest => simp at hs
  | succ n ih =>
    intro s hs hsf hcontra
    cases s with
    | nil => rw [replaceAll] at hcontra; exact hp (List.infix_nil.mp hcontra)
    | cons c rest =>
      by_cases hm : pat ≠ [] ∧ pat <+: (c :: rest)
      · rw [replaceAll, dif_pos hm] at hcontra
        rcases infix_append_cases hcontra with h1 | h2 | ⟨x, y, hxy, hx, _, hxr, _⟩
        · exact hA h1
        · have hlen : ((c :: rest).drop pat.length).length ≤ n := by
            have hp1 : 0 < pat.length := List.length_pos.mpr hm.1
            simp only [List.length_drop, List.length_cons]
            simp only [List.length_cons] at hs
            omega
          refine ih _ hlen ?_ h2
          rcases hsf with hfree | hpp
          · exact Or.inl fun hcon =>
              hfree (hcon.trans (List.drop_suffix pat.length (c :: rest)).isInfix)
          · exact Or.inr hpp
        · obtain ⟨t, htx⟩ := hxr
          have hxdrop : rep.drop t.length = x := by rw [← htx, List.drop_left]
          have hip : t.length < rep.length := by
            rw [← htx, List.length_append]
            have := List.length_pos.mpr hx
            omega
          exact hB t.length hip (hxdrop ▸ ⟨y, hxy.symm⟩)
      · rw [replaceAll, dif_neg hm] at hcontra
        have hnp : ¬ pat <+: (c :: rest) := fun hc => hm ⟨hpat, hc⟩
        rcases List.infix_cons_iff.mp hcontra with hpre | hinf
        · have hpre' : p <+: replaceAll pat rep (c :: rest) := by
            rw [replaceAll, dif_neg hm]
            exact hpre
          rcases prefix_replaceAll_cases pat rep (c :: rest) p hpre' with
            h1 | ⟨v, w, hvw, _, hw, hwr⟩ | ⟨v, r, hvr⟩
          · rcases hsf with hfree | hpp
            · exact hfree h1.isInfix
            · exact hnp (hpp ▸ h1)
          · cases v with
            | nil =>
              simp only [List.nil_append] at hvw
              exact hA (hvw ▸ hwr.isInfix)
            | cons v0 v' =>
              have htake : rep.take w.length = w := by
                obtain ⟨t, hwt⟩ := hwr
                rw [← hwt, List.take_left]
              have hwle : w.length ≤ rep.length := by
                obtain ⟨t, hwt⟩ := hwr
                rw [← hwt, List.length_append]
                omega
              exact hC w.length hwle (List.length_pos.mpr hw)
                (by rw [htake]; exact ⟨v0 :: v', hvw.symm⟩)
          · exact hD ⟨v, r, hvr.symm⟩
        · refine ih rest (by simp at hs; omega) ?_ hinf
          rcases hsf with hfree | hpp
          · exact Or.inl fun hcon => hfree (List.infix_cons hcon)
          · exact Or.inr hpp

/-! ## Container adaptation layer (Dockerfile)

The Dockerfile rewrites two routes of the wrapped server source with
`sed -i 's|/health|/ping|g'` and `sed -i 's|/v1/completions|/invocations|g'`
applied to `vllm/entrypoints/openai/api_server.py`, in that order. -/

/-- `RUN sed -i 's|/health|/ping|g' vllm/entrypoints/openai/api_server.py`. -/
def sedHealthToPing (file : List Char) : List Char :=
  replaceAll "/health".data "/ping".data file

/-- `RUN sed -i 's|/v1/completions|/invocations|g' vllm/entrypoints/openai/api_server.py`. -/
def sedCompletionsToInvocations (file : List Char) : List Char :=
  replaceAll "/v1/completions".data "/invocations".data file

/-- The container adaptation layer: both route substitutions, in the order the
Dockerfile runs them. -/
def sagemakerRoutePatch (file : List Char) : List Char :=
  sedCompletionsToInvocations (sedHealthToPing file)

/-- After the first substitution no occurrence of `/health` remains. -/
theorem health_free_after_sedHealth (s : List Char) :
    ¬ "/health".data <:+: sedHealthToPing s :=
  not_infix_replaceAll "/health".data "/ping".data "/health".data
    (by decide) (by decide) (by decide) (by decide) (by decide) (by decide)
    s (Or.inr rfl)

/-- After the second substitution no occurrence of `/v1/completions` remains. -/
theorem completions_free_after_sedCompletions (s : List Char) :
    ¬ "/v1/completions".data <:+: sedCompletionsToInvocations s :=
  not_infix_replaceAll "/v1/completions".data "/invocations".data "/v1/completions".data
    (by decide) (by decide) (by decide) (by decide) (by decide) (by decide)
    s (Or.inr rfl)

/-- The second substitution cannot introduce an occurrence of `/health`. -/
theorem health_free_preserved_by_sedCompletions (s : List Char)
    (h : ¬ "/health".data <:+: s) :
    ¬ "/health".data <:+: sedCompletionsToInvocations s :=
  not_infix_replaceAll "/v1/completions".data "/invocations".data "/health".data
    (by decide) (by decide) (by decide) (by decide) (by decide) (by decide)
    s (Or.inl h)

/-! ## Adapter manifest builder (notebook cell)

The notebook builds the `--lora-modules` manifest line as
`" ".join([f"{leaf_dir}=/opt/ml/model/{leaf_dir}/" for leaf_dir in leaf_directories])`. -/

/-- One `identifier=path` token: `f"{leaf_dir}=/opt/ml/model/{leaf_dir}/"`. -/
def loraModuleToken (leaf_dir : List Char) : List Char :=
  leaf_dir ++ "=/opt/ml/model/".data ++ leaf_dir ++ "/".data

/-- Python's `" ".join`: the separator goes between consecutive elements only. -/
def joinSpace : List (List Char) → List Char
  | [] => []
  | [t] => t
  | t :: ts => t ++ ' ' :: joinSpace ts

/-- The manifest line written to `lora_modules.txt`. -/
def vllm_arg_pattern (leaf_directories : List (List Char)) : List Char :=
  joinSpace (leaf_directories.map loraModuleToken)

/-- Split a character list on spaces (each space is a separator). -/
def splitSpace : List Char → List (List Char)
  | [] => [[]]
  | c :: rest =>
    if c = ' ' then [] :: splitSpace rest
    else
      match splitSpace rest with
      | [] => [[c]]
      | t :: ts => (c :: t) :: ts

theorem splitSpace_ne_nil (s : List Char) : splitSpace s ≠ [] := by
  cases s with
  | nil => simp [splitSpace]
  | cons c rest =>
    simp only [splitSpace]
    split
    · simp
    · split <;> simp

/-- A space-free chunk splits to itself. -/
theorem splitSpace_of_no_space {t : List Char} (h : ' ' ∉ t) : splitSpace t = [t] := by
  induction t with
  | nil => rfl
  | cons c rest ih =>
    have hc : ¬ c = ' ' := fun hcc => h (hcc ▸ List.mem_cons_self c rest)
    have hr : ' ' ∉ rest := fun hm => h (List.mem_cons_of_mem c hm)
    simp only [splitSpace, if_neg hc, ih hr]

/-- Splitting consumes a leading space-free chunk up to the first separator. -/
theorem splitSpace_append_space {t : List Char} (r : List Char) (h : ' ' ∉ t) :
    splitSpace (t ++ ' ' :: r) = t :: splitSpace r := by
  induction t with
  | nil => simp [splitSpace]
  | cons c rest ih =>
    have hc : ¬ c = ' ' := fun hcc => h (hcc ▸ List.mem_cons_self c rest)
    have hr : ' ' ∉ rest := fun hm => h (List.mem_cons_of_mem c hm)
    show splitSpace (c :: (rest ++ ' ' :: r)) = (c :: rest) :: splitSpace r
    simp only [splitSpace, if_neg hc]
    rw [ih hr]

/-- Round trip: splitting the joined tokens recovers them, provided each token
is space-free and the token list is nonempty. -/
theorem splitSpace_joinSpace : ∀ {toks : List (List Char)}, toks ≠ [] →
    (∀ x ∈ toks, ' ' ∉ x) → splitSpace (joinSpace toks) = toks := by
  intro toks
  induction toks with
  | nil => intro h _; exact absurd rfl h
  | cons t ts ih =>
    intro _ hok
    cases ts with
    | nil => exact splitSpace_of_no_space (hok t (List.mem_cons_self t []))
    | cons t2 ts' =>
      have hj : joinSpace (t :: t2 :: ts') = t ++ ' ' :: joinSpace (t2 :: ts') := rfl
      rw [hj, splitSpace_append_space _ (hok t (List.mem_cons_self t _)),
        ih (by simp) (fun x hx => hok x (List.mem_cons_of_mem t hx))]

theorem joinSpace_ne_nil {toks : List (List Char)} (hne : toks ≠ [])
    (hok : ∀ x ∈ toks, x ≠ []) : joinSpace toks ≠ [] := by
  cases toks with
  | nil => exact absurd rfl hne
  | cons t ts =>
    cases ts with
    | nil => exact hok t (List.mem_cons_self t [])
    | cons t2 ts' =>
      show t ++ ' ' :: joinSpace (t2 :: ts') ≠ []
      simp

/-- The joined line has no trailing separator: its last character, if any, is
the last character of the last (nonempty, space-free) token. -/
theorem joinSpace_getLast?_ne_space : ∀ {toks : List (List Char)},
    (∀ x ∈ toks, x ≠ [] ∧ ' ' ∉ x) → (joinSpace toks).getLast? ≠ some ' ' := by
  intro toks
  induction toks with
  | nil => intro _; simp [joinSpace]
  | cons t ts ih =>
    intro hok
    cases ts with
    | nil =>
      show t.getLast? ≠ some ' '
      obtain ⟨htne, htsp⟩ := hok t (List.mem_cons_self t [])
      rw [List.getLast?_eq_getLast t htne]
      intro hcon
      exact htsp (Option.some_injective _ hcon ▸ t.getLast_mem htne)
    | cons t2 ts' =>
      have hok' : ∀ x ∈ t2 :: ts', x ≠ [] ∧ ' ' ∉ x :=
        fun x hx => hok x (List.mem_cons_of_mem t hx)
      have hjne : joinSpace (t2 :: ts') ≠ [] :=
        joinSpace_ne_nil (by simp) (fun x hx => (hok' x hx).1)
      show (t ++ ' ' :: joinSpace (t2 :: ts')).getLast? ≠ some ' '
      rw [List.getLast?_append_of_ne_nil t (by simp)]
      cases hj : joinSpace (t2 :: ts') with
      | nil => exact absurd hj hjne
      | cons j0 j' =>
        rw [List.getLast?_cons_cons]
        rw [hj] at ih
        exact ih hok'

/-- Characters of a token come from the identifier or the fixed literals. -/
theorem mem_loraModuleToken {c : Char} {l : List Char} (hm : c ∈ loraModuleToken l) :
    c ∈ l ∨ c ∈ "=/opt/ml/model/".data ∨ c ∈ "/".data := by
  rcases List.mem_append.mp hm with h1 | h1
  · rcases List.mem_append.mp h1 with h2 | h2
    · rcases List.mem_append.mp h2 with h3 | h3
      · exact Or.inl h3
      · exact Or.inr (Or.inl h3)
    · exact Or.inl h2
  · exact Or.inr (Or.inr h1)

theorem loraModuleToken_injective : Function.Injective loraModuleToken := by
  intro a b h
  have hlen : a.length = b.length := by
    have h2 := congrArg List.length h
    simp only [loraModuleToken, List.length_append] at h2
    omega
  have h3 : a ++ ("=/opt/ml/model/".data ++ a ++ "/".data) =
      b ++ ("=/opt/ml/model/".data ++ b ++ "/".data) := by
    simpa [loraModuleToken, List.append_assoc] using h
  exact (List.append_inj h3 hlen).1

/-- C4: for any listing result of `A` sibling child directory names, the
generated manifest is a single line (no newline) of exactly `A` space-separated
`identifier=path` tokens with no trailing delimiter, where each path is the
fixed mount root `/opt/ml/model/` joined with the identifier and ends in the
identifier followed by `/`, and no identifier appears twice. -/
theorem C4_manifest_exactly_A_tokens (leaf_directories : List (List Char))
    (hne : leaf_directories ≠ [])
    (hok : ∀ l ∈ leaf_directories, l ≠ [] ∧ ' ' ∉ l ∧ '\n' ∉ l)
    (hnd : leaf_directories.Nodup) :
    splitSpace (vllm_arg_pattern leaf_directories) =
      leaf_directories.map loraModuleToken ∧
    (splitSpace (vllm_arg_pattern leaf_directories)).length =
      leaf_directories.length ∧
    (∀ l ∈ leaf_directories,
      loraModuleToken l = l ++ '=' :: ("/opt/ml/model/".data ++ (l ++ "/".data)) ∧
      (l ++ "/".data) <:+ "/opt/ml/model/".data ++ (l ++ "/".data)) ∧
    (leaf_directories.map loraModuleToken).Nodup ∧
    (vllm_arg_pattern leaf_directories).getLast? ≠ some ' ' ∧
    '\n' ∉ vllm_arg_pattern leaf_directories := by
  have htokok : ∀ x ∈ leaf_directories.map loraModuleToken, x ≠ [] ∧ ' ' ∉ x := by
    intro x hx
    obtain ⟨l, hl, rfl⟩ := List.mem_map.mp hx
    refine ⟨by simp [loraModuleToken], fun hm => ?_⟩
    rcases mem_loraModuleToken hm with h | h | h
    · exact (hok l hl).2.1 h
    · exact absurd h (by decide)
    · exact absurd h (by decide)
  have hmapne : leaf_directories.map loraModuleToken ≠ [] := by
    simpa using hne
  have hsplit : splitSpace (vllm_arg_pattern leaf_directories) =
      leaf_directories.map loraModuleToken :=
    splitSpace_joinSpace hmapne (fun x hx => (htokok x hx).2)
  refine ⟨hsplit, by rw [hsplit, List.length_map], ?_, ?_, ?_, ?_⟩
  · intro l _
    constructor
    · show (l ++ "=/opt/ml/model/".data) ++ l ++ "/".data =
        l ++ '=' :: ("/opt/ml/model/".data ++ (l ++ "/".data))
      simp [List.append_assoc]
    · exact List.suffix_append "/opt/ml/model/".data (l ++ "/".data)
  · exact hnd.map loraModuleToken_injective
  · exact joinSpace_getLast?_ne_space htokok
  · intro hm
    have : ∀ toks : List (List Char), '\n' ∈ joinSpace toks →
        ∃ t ∈ toks, '\n' ∈ t := by
      intro toks
      induction toks with
      | nil => intro h; simp [joinSpace] at h
      | cons t ts ih =>
        intro h
        cases ts with
        | nil => exact ⟨t, List.mem_cons_self t [], h⟩
        | cons t2 ts' =>
          rcases List.mem_append.mp h with h1 | h1
          · exact ⟨t, List.mem_cons_self t _, h1⟩
          · rcases List.mem_cons.mp h1 with h2 | h2
            · exact absurd h2 (by decide)
            · obtain ⟨t', ht', hmem⟩ := ih h2
              exact ⟨t', List.mem_cons_of_mem t ht', hmem⟩
    obtain ⟨x, hx, hmem⟩ := this _ hm
    obtain ⟨l, hl, rfl⟩ := List.mem_map.mp hx
    rcases mem_loraModuleToken hmem with h | h | h
    · exact (hok l hl).2.2 h
    · exact absurd h (by decide)
    · exact absurd h (by decide)

/-- Witness for C4 with the two-adapter listing `["1", "2"]`. -/
theorem C4_manifest_witness :
    (["1".data, "2".data] : List (List Char)) ≠ [] ∧
    (∀ l ∈ (["1".data, "2".data] : List (List Char)), l ≠ [] ∧ ' ' ∉ l ∧ '\n' ∉ l) ∧
    (["1".data, "2".data] : List (List Char)).Nodup ∧
    splitSpace (vllm_arg_pattern ["1".data, "2".data]) =
      ["1".data, "2".data].map loraModuleToken :=
  ⟨by decide, by decide, by decide,
    (C4_manifest_exactly_A_tokens ["1".data, "2".data]
      (by decide) (by decide) (by decide)).1⟩

/-! ## S3 leaf-directory listing (notebook `list_s3_leaf_directories`)

The notebook lists `CommonPrefixes` of `s3.list_objects_v2(Bucket, Prefix,
Delimiter='/')` and derives each adapter identifier with
`directory_path.rstrip('/').rsplit('/', 1)[-1]`. -/

/-- Python `s.rstrip('/')`: remove every trailing `/`. -/
def pyRstripSlash (s : List Char) : List Char :=
  (s.reverse.dropWhile (fun c => c = '/')).reverse

/-- Python `s.rsplit('/', 1)[-1]`: the part after the last `/`, or the whole
string when it contains no `/`. -/
def pyRsplitSlashLast (s : List Char) : List Char :=
  (s.reverse.takeWhile (fun c => c ≠ '/')).reverse

/-- The loop body of `list_s3_leaf_directories`: extract the leaf directory
name from one common prefix. -/
def leafDirectoryName (directory_path : List Char) : List Char :=
  pyRsplitSlashLast (pyRstripSlash directory_path)

/-- Modelled from the documented semantics of S3 `list_objects_v2` with
`Delimiter='/'` (the notebook only consumes its result): a key that shares
the request prefix and contains the delimiter after it is rolled up into the
common prefix ending at the first delimiter after the request prefix; keys
without a delimiter after the request prefix are plain sibling objects and
appear in `Contents`, never in `CommonPrefixes`; common prefixes are
reported once each. -/
def commonPrefixes (keys : List (List Char)) (pfx : List Char) : List (List Char) :=
  (keys.filterMap (fun k =>
    if pfx <+: k ∧ '/' ∈ k.drop pfx.length then
      some (pfx ++ (k.drop pfx.length).takeWhile (fun c => c ≠ '/') ++ "/".data)
    else none)).dedup

/-- `list_s3_leaf_directories(bucket_name, prefix)` over the modelled bucket
listing: map the leaf-name derivation over `CommonPrefixes`. -/
def list_s3_leaf_directories (keys : List (List Char)) (pfx : List Char) :
    List (List Char) :=
  (commonPrefixes keys pfx).map leafDirectoryName

/-- Modelled from the spec: the "final path segment" of a child prefix — the
last `/`-separated component after stripping a trailing `/`. -/
def finalPathSegment (cp : List Char) : List Char :=
  let stripped := if cp.getLast? = some '/' then cp.dropLast else cp
  (stripped.reverse.takeWhile (fun c => c ≠ '/')).reverse

theorem takeWhile_append_of_all {p : Char → Bool} {l₁ : List Char} (l₂ : List Char)
    (h : ∀ a ∈ l₁, p a = true) :
    (l₁ ++ l₂).takeWhile p = l₁ ++ l₂.takeWhile p := by
  induction l₁ with
  | nil => rfl
  | cons a l ih =>
    simp only [List.cons_append, List.takeWhile_cons, h a (List.mem_cons_self a l),
      ih (fun x hx => h x (List.mem_cons_of_mem a hx))]
    simp

/-- `rsplit('/', 1)[-1]` distributes over an append whose right part is
slash-free. -/
theorem pyRsplitSlashLast_append {seg : List Char} (x : List Char) (hs : '/' ∉ seg) :
    pyRsplitSlashLast (x ++ seg) = pyRsplitSlashLast x ++ seg := by
  unfold pyRsplitSlashLast
  rw [List.reverse_append, takeWhile_append_of_all _ (fun a ha => by
    have : a ∈ seg := List.mem_reverse.mp ha
    simp only [ne_eq, decide_eq_true_eq]
    exact fun hc => hs (hc ▸ this)), List.reverse_append, List.reverse_reverse]

/-- `rstrip('/')` on a path of the form `stem ++ seg ++ "/"` with `seg`
nonempty and slash-free removes exactly the one trailing slash. -/
theorem pyRstripSlash_concat {stem seg : List Char} (hseg : seg ≠ []) (hs : '/' ∉ seg) :
    pyRstripSlash (stem ++ seg ++ "/".data) = stem ++ seg := by
  unfold pyRstripSlash
  have h1 : (stem ++ seg ++ "/".data).reverse = '/' :: (seg.reverse ++ stem.reverse) := by
    simp [List.reverse_append]
  rw [h1]
  have h2 : (('/' : Char) :: (seg.reverse ++ stem.reverse)).dropWhile (fun c => c = '/') =
      (seg.reverse ++ stem.reverse).dropWhile (fun c => c = '/') := by
    rw [List.dropWhile_cons]
    simp
  rw [h2]
  cases hsr : seg.reverse with
  | nil => exact absurd (by simpa using congrArg List.reverse hsr) hseg
  | cons c t =>
    have hc : c ≠ '/' := by
      intro hcc
      apply hs
      rw [← List.mem_reverse, hsr, hcc]
      exact List.mem_cons_self _ _
    rw [List.cons_append, List.dropWhile_cons]
    simp only [decide_eq_true_eq, hc, if_false]
    have hseg' : seg = t.reverse ++ [c] := by
      have h3 := congrArg List.reverse hsr
      simpa using h3
    rw [hseg']
    simp [List.reverse_cons, List.reverse_append]

/-- On the common-prefix shape, the code's leaf-name derivation is
`rsplit` applied after removing the one trailing slash. -/
theorem leafDirectoryName_concat {stem seg : List Char} (hseg : seg ≠ [])
    (hs : '/' ∉ seg) :
    leafDirectoryName (stem ++ seg ++ "/".data) = pyRsplitSlashLast stem ++ seg := by
  unfold leafDirectoryName
  rw [pyRstripSlash_concat hseg hs, pyRsplitSlashLast_append stem hs]

theorem finalPathSegment_concat {stem seg : List Char} (hs : '/' ∉ seg) :
    finalPathSegment (stem ++ seg ++ "/".data) = pyRsplitSlashLast stem ++ seg := by
  have hshape : stem ++ seg ++ "/".data = (stem ++ seg) ++ ['/'] := by simp
  have hl : (stem ++ seg ++ "/".data).getLast? = some '/' := by
    rw [hshape]
    exact List.getLast?_concat _
  unfold finalPathSegment
  rw [hl, if_pos rfl, hshape, List.dropLast_concat]
  exact pyRsplitSlashLast_append stem hs

/-- `rsplit('/', 1)[-1]` of an empty or slash-terminated string is empty. -/
theorem pyRsplitSlashLast_eq_nil {stem : List Char}
    (h : stem = [] ∨ ∃ z, stem = z ++ "/".data) : pyRsplitSlashLast stem = [] := by
  rcases h with rfl | ⟨z, rfl⟩
  · rfl
  · unfold pyRsplitSlashLast
    rw [List.reverse_append]
    simp [List.takeWhile_cons]

/-- C8: for every child prefix returned by the non-recursive storage-prefix
listing, the derived adapter identifier equals the final path segment of that
child prefix (the last `/`-separated component after stripping a trailing
`/`); a plain sibling object (no delimiter after the request prefix, such as
the manifest file) is never returned as a child prefix and therefore never
yields an adapter identifier; and every common prefix has the shape
`request-prefix ++ segment ++ "/"` with a slash-free segment. -/
theorem C8_leaf_directory_names (stem seg : List Char) (hseg : seg ≠ [])
    (hs : '/' ∉ seg) :
    leafDirectoryName (stem ++ seg ++ "/".data) =
      finalPathSegment (stem ++ seg ++ "/".data) ∧
    ((stem = [] ∨ ∃ z, stem = z ++ "/".data) →
      leafDirectoryName (stem ++ seg ++ "/".data) = seg) ∧
    (∀ (keys : List (List Char)) (pfx k : List Char), '/' ∉ k.drop pfx.length →
      list_s3_leaf_directories (k :: keys) pfx = list_s3_leaf_directories keys pfx) ∧
    (∀ (keys : List (List Char)) (pfx cp : List Char), cp ∈ commonPrefixes keys pfx →
      ∃ s2, '/' ∉ s2 ∧ cp = pfx ++ (s2 ++ "/".data)) := by
  refine ⟨?_, ?_, ?_, ?_⟩
  · rw [leafDirectoryName_concat hseg hs, finalPathSegment_concat hs]
  · intro hstem
    rw [leafDirectoryName_concat hseg hs, pyRsplitSlashLast_eq_nil hstem,
      List.nil_append]
  · intro keys pfx k hk
    unfold list_s3_leaf_directories commonPrefixes
    have hnone : (if pfx <+: k ∧ '/' ∈ k.drop pfx.length then
        some (pfx ++ (k.drop pfx.length).takeWhile (fun c => c ≠ '/') ++ "/".data)
      else none) = none := if_neg (fun hc => hk hc.2)
    rw [List.filterMap_cons, hnone]
  · intro keys pfx cp hcp
    unfold commonPrefixes at hcp
    rw [List.mem_dedup] at hcp
    obtain ⟨k, hk, hfk⟩ := List.mem_filterMap.mp hcp
    by_cases hcond : pfx <+: k ∧ '/' ∈ k.drop pfx.length
    · rw [if_pos hcond] at hfk
      refine ⟨(k.drop pfx.length).takeWhile (fun c => c ≠ '/'), ?_, ?_⟩
      · intro hm
        have hp := List.mem_takeWhile_imp hm
        simp at hp
      · have := Option.some_injective _ hfk
        rw [← this, List.append_assoc]
    · rw [if_neg hcond] at hfk
      exact absurd hfk (by simp)

/-- Witness for C8 with prefix `adapters/`, leaf `7`, and the manifest file
`adapters/lora_modules.txt` as a plain sibling object. -/
theorem C8_leaf_directory_witness :
    ("7".data : List Char) ≠ [] ∧ '/' ∉ "7".data ∧
    '/' ∉ "adapters/lora_modules.txt".data.drop "adapters/".data.length ∧
    leafDirectoryName ("adapters/".data ++ "7".data ++ "/".data) =
      finalPathSegment ("adapters/".data ++ "7".data ++ "/".data) ∧
    leafDirectoryName ("adapters/".data ++ "7".data ++ "/".data) = "7".data ∧
    list_s3_leaf_directories ["adapters/lora_modules.txt".data, "adapters/7/k".data]
        "adapters/".data =
      list_s3_leaf_directories ["adapters/7/k".data] "adapters/".data :=
  ⟨by decide, by decide, by decide,
   (C8_leaf_directory_names "adapters/".data "7".data (by decide) (by decide)).1,
   (C8_leaf_directory_names "adapters/".data "7".data (by decide) (by decide)).2.1
     (Or.inr ⟨"adapters".data, by decide⟩),
   (C8_leaf_directory_names "adapters/".data "7".data (by decide) (by decide)).2.2.1
     ["adapters/7/k".data] "adapters/".data "adapters/lora_modules.txt".data
     (by decide)⟩

/-! ## Entrypoint launch command (`sagemaker_entrypoint.sh`)

The entrypoint assembles `LAUNCH_COMMAND` by interpolating environment
values, then appends ` --enforce-eager` exactly when
`[ "$ENFORCE_EAGER" = "true" ]`; in shell, an unset variable expands to the
empty string. -/

/-- The base `LAUNCH_COMMAND` string (line continuations joined by single
spaces). -/
def launch_command_base (hf_model_id max_model_len lora_modules max_gpu_loras
    max_cpu_loras max_num_seqs : List Char) : List Char :=
  "vllm.entrypoints.openai.api_server --port 8080 --model ".data ++ hf_model_id ++
  " --max-model-len ".data ++ max_model_len ++
  " --enable-lora --lora-modules ".data ++ lora_modules ++
  " --max-loras ".data ++ max_gpu_loras ++
  " --max-cpu-loras ".data ++ max_cpu_loras ++
  " --max-num-seqs ".data ++ max_num_seqs

/-- `LAUNCH_COMMAND` after the `ENFORCE_EAGER` conditional; `none` models an
unset variable (which the shell expands to the empty string). -/
def launch_command (hf_model_id max_model_len lora_modules max_gpu_loras
    max_cpu_loras max_num_seqs : List Char) (enforce_eager : Option (List Char)) :
    List Char :=
  if enforce_eager.getD [] = "true".data then
    launch_command_base hf_model_id max_model_len lora_modules max_gpu_loras
      max_cpu_loras max_num_seqs ++ " --enforce-eager".data
  else
    launch_command_base hf_model_id max_model_len lora_modules max_gpu_loras
      max_cpu_loras max_num_seqs

/-- C5: the composed launch command contains `--enforce-eager` if and only if
the `ENFORCE_EAGER` value is exactly the string `"true"`; for every other
value — including `"True"`, `"1"`, `"false"`, and the variable being unset —
the command is exactly the base command, with the flag omitted. -/
theorem C5_enforce_eager_exact_match (hf ml lm mg mc ms : List Char)
    (enforce_eager : Option (List Char))
    (hbase : ¬ "--enforce-eager".data <:+: launch_command_base hf ml lm mg mc ms) :
    ("--enforce-eager".data <:+: launch_command hf ml lm mg mc ms enforce_eager ↔
      enforce_eager = some "true".data) ∧
    (∀ v, enforce_eager = some v → v ≠ "true".data →
      launch_command hf ml lm mg mc ms enforce_eager =
        launch_command_base hf ml lm mg mc ms) ∧
    (enforce_eager = none →
      launch_command hf ml lm mg mc ms enforce_eager =
        launch_command_base hf ml lm mg mc ms) := by
  have hgetD : enforce_eager.getD [] = "true".data ↔ enforce_eager = some "true".data := by
    cases enforce_eager with
    | none => simp [Option.getD]
    | some v => simp [Option.getD]
  constructor
  · by_cases h : enforce_eager.getD [] = "true".data
    · rw [launch_command, if_pos h]
      constructor
      · intro _
        exact hgetD.mp h
      · intro _
        show "--enforce-eager".data <:+:
          launch_command_base hf ml lm mg mc ms ++ (' ' :: "--enforce-eager".data)
        exact ⟨launch_command_base hf ml lm mg mc ms ++ [' '], [], by simp⟩
    · rw [launch_command, if_neg h]
      constructor
      · intro hcon
        exact absurd hcon hbase
      · intro hsome
        exact absurd (hgetD.mpr hsome) h
  · constructor
    · intro v hv hne
      rw [launch_command, if_neg]
      rw [hv]
      simpa using hne
    · intro hnone
      rw [launch_command, if_neg]
      rw [hnone]
      simp [Option.getD]

set_option maxRecDepth 8000 in
/-- Witness for C5 with the notebook's deployment configuration
(`ENFORCE_EAGER` is `json.dumps(False)`, the string `"false"`). -/
theorem C5_enforce_eager_witness :
    ¬ "--enforce-eager".data <:+:
      launch_command_base "mistralai/Mistral-7B-Instruct-v0.1".data "4096".data
        "1=/opt/ml/model/1/".data "20".data "50".data "100".data ∧
    launch_command "mistralai/Mistral-7B-Instruct-v0.1".data "4096".data
        "1=/opt/ml/model/1/".data "20".data "50".data "100".data
        (some "false".data) =
      launch_command_base "mistralai/Mistral-7B-Instruct-v0.1".data "4096".data
        "1=/opt/ml/model/1/".data "20".data "50".data "100".data :=
  ⟨by decide,
   (C5_enforce_eager_exact_match "mistralai/Mistral-7B-Instruct-v0.1".data
      "4096".data "1=/opt/ml/model/1/".data "20".data "50".data "100".data
      (some "false".data) (by decide)).2.1 "false".data rfl (by decide)⟩

/-! ## Benchmark harness (notebook benchmarking cell)

The notebook runs `num_threads` worker threads over shared counters guarded
by one `threading.Lock`.  In the embedding each `with counters_lock:` block
(eligibility check plus decrement) is a single atomic transition; the remote
call performed after releasing the lock is recorded by the same transition
(one call per successful decrement).  Workers that observe an exhausted
budget take an exit transition. -/

/-- Notebook configuration: `total_requests = 300`. -/
def total_requests : Nat := 300

/-- Notebook configuration: `num_adapters = 50`. -/
def num_adapters : Nat := 50

/-- Notebook configuration: `num_threads = 20`. -/
def num_threads : Nat := 20

/-- `payload_adapter["model"] = str(adapter_id)`. -/
def payload_model (adapter_id : Nat) : List Char :=
  (toString adapter_id).data

/-- Single-adapter mode hard-codes `adapter_id = 1`. -/
def single_adapter_id : Nat := 1

/-- State of the single-adapter benchmark: the shared `total_requests`
counter (a Python integer), per-worker call counts, the payload `model`
fields sent so far, and which workers have exited. -/
structure SCfg (W : Nat) where
  remaining : Int
  calls : Fin W → Nat
  payloads : List (List Char)
  done : Fin W → Bool

/-- One atomic transition of the single-adapter benchmark: inside the lock a
live worker either sees `total_requests > 0`, decrements it and performs one
call with the hard-coded adapter, or sees it exhausted and breaks out. -/
inductive SStep (W : Nat) : SCfg W → SCfg W → Prop
  | work (i : Fin W) (c : SCfg W) (hdone : c.done i = false)
      (hpos : 0 < c.remaining) :
      SStep W c ⟨c.remaining - 1, Function.update c.calls i (c.calls i + 1),
        c.payloads ++ [payload_model single_adapter_id], c.done⟩
  | exit (i : Fin W) (c : SCfg W) (hdone : c.done i = false)
      (hz : c.remaining ≤ 0) :
      SStep W c ⟨c.remaining, c.calls, c.payloads, Function.update c.done i true⟩

/-- Reachability for the single-adapter benchmark. -/
def SReach (W : Nat) : SCfg W → SCfg W → Prop :=
  Relation.ReflTransGen (SStep W)

/-- Initial state of a single-adapter run with budget `T`. -/
def initS (W T : Nat) : SCfg W :=
  ⟨(T : Int), fun _ => 0, [], fun _ => false⟩

/-- Total number of remote calls executed across all workers. -/
def totalCallsS {W : Nat} (c : SCfg W) : Nat :=
  ∑ i, c.calls i

/-- Inductive invariant of the single-adapter benchmark: the counter plus the
calls made equals the initial budget, the counter never goes negative, a
worker exits only after the counter hits zero, and every payload names the
hard-coded adapter. -/
def SInv (W T : Nat) (c : SCfg W) : Prop :=
  c.remaining + (totalCallsS c : Int) = T ∧
  0 ≤ c.remaining ∧
  (∀ i, c.done i = true → c.remaining ≤ 0) ∧
  (∀ p ∈ c.payloads, p = payload_model single_adapter_id) ∧
  c.payloads.length = totalCallsS c

theorem SStep_preserves_SInv {W T : Nat} {b c : SCfg W} (hstep : SStep W b c)
    (ih : SInv W T b) : SInv W T c := by
  obtain ⟨hsum, hnn, hdz, hpay, hlen⟩ := ih
  cases hstep with
  | work i b hdone hpos =>
    have hcalls : (∑ j, Function.update b.calls i (b.calls i + 1) j) =
        (∑ j, b.calls j) + 1 := by
      rw [Finset.sum_update_of_mem (Finset.mem_univ i),
        Finset.sum_eq_sum_diff_singleton_add (Finset.mem_univ i) b.calls]
      omega
    unfold totalCallsS at hsum hlen
    refine ⟨?_, ?_, ?_, ?_, ?_⟩
    · show b.remaining - 1 +
        ((∑ j, Function.update b.calls i (b.calls i + 1) j : Nat) : Int) = T
      rw [hcalls]
      omega
    · show (0 : Int) ≤ b.remaining - 1
      omega
    · intro j hj
      show b.remaining - 1 ≤ 0
      exact absurd (hdz j hj) (by omega)
    · intro p hp
      rcases List.mem_append.mp hp with h1 | h1
      · exact hpay p h1
      · simpa using h1
    · show (b.payloads ++ [payload_model single_adapter_id]).length =
        ∑ j, Function.update b.calls i (b.calls i + 1) j
      rw [List.length_append, hcalls]
      simp
      omega
  | exit i b hdone hz =>
    refine ⟨hsum, hnn, ?_, hpay, hlen⟩
    intro j _
    exact hz

theorem SReach_invariant {W T : Nat} {c : SCfg W} (h : SReach W (initS W T) c) :
    SInv W T c := by
  induction h with
  | refl =>
    refine ⟨by simp [initS, totalCallsS], by simp [initS], ?_, by simp [initS], ?_⟩
    · intro i hi
      simp [initS] at hi
    · simp [initS, totalCallsS]
  | tail _ hstep ih => exact SStep_preserves_SInv hstep ih

/-- C1: in single-adapter mode with total request budget `T = 300` and any
worker count `W ∈ {1, 5, 20}`, every terminal reachable state of the harness
has executed exactly 300 remote calls across all workers — no overshoot, no
undershoot — because check and decrement happen in one critical section and
workers exit only on an exhausted counter. -/
theorem C1_single_adapter_exact_total {W : Nat} (hW : W = 1 ∨ W = 5 ∨ W = 20)
    {c : SCfg W} (hreach : SReach W (initS W 300) c)
    (hterm : ∀ i, c.done i = true) : totalCallsS c = 300 := by
  obtain ⟨hsum, hnn, hdz, -, -⟩ := SReach_invariant hreach
  have hWpos : 0 < W := by rcases hW with rfl | rfl | rfl <;> decide
  have hz : c.remaining ≤ 0 := hdz ⟨0, hWpos⟩ (hterm ⟨0, hWpos⟩)
  omega

/-- The fully drained single-worker configuration after a budget-`T` run. -/
def drainedS (T : Nat) : SCfg 1 :=
  ⟨0, fun _ => T, List.replicate T (payload_model single_adapter_id), fun _ => true⟩

theorem SReach_drain_one (T : Nat) : ∀ k, k ≤ T → SReach 1 (initS 1 T)
    ⟨(T : Int) - k, fun _ => k,
      List.replicate k (payload_model single_adapter_id), fun _ => false⟩ := by
  intro k
  induction k with
  | zero =>
    intro _
    have hcfg : (⟨(T : Int) - ((0 : Nat) : Int), fun _ => (0 : Nat),
        List.replicate 0 (payload_model single_adapter_id), fun _ => false⟩ : SCfg 1) =
        initS 1 T := by
      simp [initS]
    rw [hcfg]
    exact Relation.ReflTransGen.refl
  | succ k ih =>
    intro hk
    refine Relation.ReflTransGen.tail (ih (Nat.le_of_succ_le hk)) ?_
    have hstep := SStep.work (W := 1) ⟨0, by decide⟩
      ⟨(T : Int) - k, fun _ => k,
        List.replicate k (payload_model single_adapter_id), fun _ => false⟩
      rfl (by push_cast; omega)
    have hcfg : (⟨(T : Int) - k - 1,
        Function.update (fun _ : Fin 1 => k) ⟨0, by decide⟩ (k + 1),
        List.replicate k (payload_model single_adapter_id) ++
          [payload_model single_adapter_id], fun _ : Fin 1 => false⟩ : SCfg 1) =
        ⟨(T : Int) - (k + 1 : Nat), fun _ => k + 1,
          List.replicate (k + 1) (payload_model single_adapter_id),
          fun _ => false⟩ := by
      have h1 : (T : Int) - k - 1 = (T : Int) - ((k + 1 : Nat) : Int) := by
        push_cast
        ring
      have h2 : Function.update (fun _ : Fin 1 => k) ⟨0, by decide⟩ (k + 1) =
          fun _ : Fin 1 => k + 1 := by
        funext j
        fin_cases j
        simp
      have h3 : List.replicate k (payload_model single_adapter_id) ++
          [payload_model single_adapter_id] =
          List.replicate (k + 1) (payload_model single_adapter_id) :=
        (List.replicate_succ' _ _).symm
      rw [h1, h2, h3]
    rw [← hcfg]
    exact hstep

/-- After draining, the single worker exits: the drained terminal state is
reachable. -/
theorem SReach_drained (T : Nat) : SReach 1 (initS 1 T) (drainedS T) := by
  refine Relation.ReflTransGen.tail (SReach_drain_one T T le_rfl) ?_
  have hstep := SStep.exit (W := 1) ⟨0, by decide⟩
    ⟨(T : Int) - T, fun _ => T,
      List.replicate T (payload_model single_adapter_id), fun _ => false⟩
    rfl (by push_cast; omega)
  have hcfg : (⟨(T : Int) - T, fun _ : Fin 1 => T,
      List.replicate T (payload_model single_adapter_id),
      Function.update (fun _ : Fin 1 => false) ⟨0, by decide⟩ true⟩ : SCfg 1) =
      drainedS T := by
    simp [drainedS, SCfg.mk.injEq]
    funext j
    fin_cases j
    simp
  rw [← hcfg]
  exact hstep

/-- Witness for C1: the drained terminal single-worker run of budget 300. -/
theorem C1_single_adapter_witness :
    ((1 : Nat) = 1 ∨ (1 : Nat) = 5 ∨ (1 : Nat) = 20) ∧
    SReach 1 (initS 1 300) (drainedS 300) ∧
    (∀ i, (drainedS 300).done i = true) ∧
    totalCallsS (drainedS 300) = 300 :=
  ⟨Or.inl rfl, SReach_drained 300, fun _ => rfl,
    C1_single_adapter_exact_total (Or.inl rfl) (SReach_drained 300) (fun _ => rfl)⟩

/-- C9: after a single-adapter benchmark run completes, the shared
module-level budget counter `total_requests` is 0, and nothing in
`benchmark_scenario` resets it; consequently a subsequent single-adapter run
starts from a zero budget, and in every state such a run can reach no worker
has performed any remote call. -/
theorem C9_budget_exhausted_second_run {W W' T : Nat} (hW : 0 < W)
    {c : SCfg W} (hreach : SReach W (initS W T) c)
    (hterm : ∀ i, c.done i = true)
    {c' : SCfg W'} (hreach' : SReach W' (initS W' 0) c') :
    c.remaining = 0 ∧ totalCallsS c' = 0 ∧ c'.payloads = [] := by
  obtain ⟨hsum, hnn, hdz, -, -⟩ := SReach_invariant hreach
  obtain ⟨hsum', hnn', -, -, hlen'⟩ := SReach_invariant hreach'
  have hz : c.remaining ≤ 0 := hdz ⟨0, hW⟩ (hterm ⟨0, hW⟩)
  have h1 : c.remaining = 0 := le_antisymm hz hnn
  have h2 : totalCallsS c' = 0 := by omega
  refine ⟨h1, h2, ?_⟩
  rw [← List.length_eq_zero]
  omega

/-- Witness for C9: a drained budget-300 run followed by a fresh zero-budget
run that has taken no step yet. -/
theorem C9_budget_exhausted_witness :
    (0 : Nat) < 1 ∧
    SReach 1 (initS 1 300) (drainedS 300) ∧
    (∀ i, (drainedS 300).done i = true) ∧
    SReach 20 (initS 20 0) (initS 20 0) ∧
    ((drainedS 300).remaining = 0 ∧ totalCallsS (initS 20 0) = 0 ∧
      (initS 20 0).payloads = []) :=
  ⟨Nat.one_pos, SReach_drained 300, fun _ => rfl, Relation.ReflTransGen.refl,
    C9_budget_exhausted_second_run Nat.one_pos (SReach_drained 300) (fun _ => rfl)
      Relation.ReflTransGen.refl⟩

/-- C10: in single-adapter mode the adapter identifier is the hard-coded
constant `1`, sent as the string `"1"` in the payload's `model` field, in
every state reachable under any budget `T` and worker count `W` — it is not
configurable through the harness's configuration parameters. -/
theorem C10_single_adapter_hardcoded {W T : Nat} {c : SCfg W}
    (hreach : SReach W (initS W T) c) :
    single_adapter_id = 1 ∧
    payload_model single_adapter_id = "1".data ∧
    ∀ p ∈ c.payloads, p = "1".data := by
  refine ⟨rfl, rfl, ?_⟩
  intro p hp
  exact (SReach_invariant hreach).2.2.2.1 p hp

/-- Witness for C10 on the drained budget-300 single-worker run. -/
theorem C10_single_adapter_witness :
    SReach 1 (initS 1 300) (drainedS 300) ∧
    (single_adapter_id = 1 ∧ payload_model single_adapter_id = "1".data ∧
      ∀ p ∈ (drainedS 300).payloads, p = "1".data) :=
  ⟨SReach_drained 300, C10_single_adapter_hardcoded (SReach_drained 300)⟩

/-- State of the distributed-random benchmark: the shared `adapter_counters`
list (Python integers), per-worker call counts, payload `model` fields sent,
and which workers have exited. -/
structure DCfg (A W : Nat) where
  adapter_counters : Fin A → Int
  calls : Fin W → Nat
  payloads : List (List Char)
  done : Fin W → Bool

/-- One atomic transition of the distributed-random benchmark: inside the
lock a live worker either picks some adapter with a positive remaining count
(`random.choice` is modelled as nondeterministic choice), decrements it and
performs one call with `adapter_id = index + 1`, or sees no eligible adapter
and breaks out. -/
inductive DStep (A W : Nat) : DCfg A W → DCfg A W → Prop
  | work (i : Fin W) (a : Fin A) (c : DCfg A W) (hdone : c.done i = false)
      (hpos : 0 < c.adapter_counters a) :
      DStep A W c ⟨Function.update c.adapter_counters a (c.adapter_counters a - 1),
        Function.update c.calls i (c.calls i + 1),
        c.payloads ++ [payload_model (a.val + 1)], c.done⟩
  | exit (i : Fin W) (c : DCfg A W) (hdone : c.done i = false)
      (hz : ∀ a, c.adapter_counters a ≤ 0) :
      DStep A W c ⟨c.adapter_counters, c.calls, c.payloads,
        Function.update c.done i true⟩

/-- Reachability for the distributed-random benchmark. -/
def DReach (A W : Nat) : DCfg A W → DCfg A W → Prop :=
  Relation.ReflTransGen (DStep A W)

/-- Initial state: `adapter_counters = [total_requests // num_adapters] *
num_adapters`, evaluated at module load with budget `T` and adapter count
`A`. -/
def initD (A W T : Nat) : DCfg A W :=
  ⟨fun _ => ((T / A : Nat) : Int), fun _ => 0, [], fun _ => false⟩

/-- Total number of remote calls executed across all workers. -/
def totalCallsD {A W : Nat} (c : DCfg A W) : Nat :=
  ∑ i, c.calls i

/-- Inductive invariant of the distributed-random benchmark. -/
def DInv (A W T : Nat) (c : DCfg A W) : Prop :=
  (∑ a, c.adapter_counters a) + (totalCallsD c : Int) = ((A * (T / A) : Nat) : Int) ∧
  (∀ a, 0 ≤ c.adapter_counters a) ∧
  (∀ i, c.done i = true → ∀ a, c.adapter_counters a ≤ 0)

theorem DStep_preserves_DInv {A W T : Nat} {b c : DCfg A W}
    (hstep : DStep A W b c) (ih : DInv A W T b) : DInv A W T c := by
  obtain ⟨hsum, hnn, hdz⟩ := ih
  cases hstep with
  | work i a b hdone hpos =>
    have hcalls : (∑ j, Function.update b.calls i (b.calls i + 1) j) =
        (∑ j, b.calls j) + 1 := by
      rw [Finset.sum_update_of_mem (Finset.mem_univ i),
        Finset.sum_eq_sum_diff_singleton_add (Finset.mem_univ i) b.calls]
      omega
    have hcnt : (∑ x, Function.update b.adapter_counters a
        (b.adapter_counters a - 1) x) = (∑ x, b.adapter_counters x) - 1 := by
      rw [Finset.sum_update_of_mem (Finset.mem_univ a),
        Finset.sum_eq_sum_diff_singleton_add (Finset.mem_univ a)
          b.adapter_counters]
      ring
    refine ⟨?_, ?_, ?_⟩
    · show (∑ x, Function.update b.adapter_counters a
          (b.adapter_counters a - 1) x) +
        ((∑ j, Function.update b.calls i (b.calls i + 1) j : Nat) : Int) =
          ((A * (T / A) : Nat) : Int)
      rw [hcnt, hcalls]
      unfold totalCallsD at hsum
      omega
    · intro x
      show 0 ≤ Function.update b.adapter_counters a (b.adapter_counters a - 1) x
      rcases eq_or_ne x a with rfl | hne
      · rw [Function.update_same]
        omega
      · rw [Function.update_noteq hne]
        exact hnn x
    · intro j hj x
      have := hdz j hj a
      exact absurd this (by omega)
  | exit i b hdone hz =>
    exact ⟨hsum, hnn, fun j _ => hz⟩

theorem DReach_invariant {A W T : Nat} {c : DCfg A W}
    (h : DReach A W (initD A W T) c) : DInv A W T c := by
  induction h with
  | refl =>
    refine ⟨?_, fun _ => Int.natCast_nonneg _, ?_⟩
    · simp [initD, totalCallsD, Finset.sum_const, mul_comm]
    · intro i hi
      simp [initD] at hi
  | tail _ hstep ih => exact DStep_preserves_DInv hstep ih

/-- C2: in every reachable state of the benchmark harness, in both traffic
modes, no remaining-count counter is ever negative — the eligibility check
and the decrement form one critical section (one atomic transition of the
model), so the last unit of work can be claimed only once. -/
theorem C2_no_negative_counters {W A T T' : Nat} {c : SCfg W} {d : DCfg A W}
    (hs : SReach W (initS W T) c) (hd : DReach A W (initD A W T') d) :
    0 ≤ c.remaining ∧ ∀ a, 0 ≤ d.adapter_counters a :=
  ⟨(SReach_invariant hs).2.1, (DReach_invariant hd).2.1⟩

/-- The drained one-adapter one-worker distributed run of budget 1. -/
def drainedD : DCfg 1 1 :=
  ⟨fun _ => 0, fun _ => 1, [payload_model 1], fun _ => true⟩

theorem DReach_drainedD : DReach 1 1 (initD 1 1 1) drainedD := by
  have hmid : DStep 1 1 (initD 1 1 1)
      ⟨fun _ => 0, fun _ => 1, [payload_model 1], fun _ => false⟩ := by
    have hstep := DStep.work (A := 1) (W := 1) ⟨0, by decide⟩ ⟨0, by decide⟩
      (initD 1 1 1) rfl (by simp [initD])
    have hcfg : (⟨Function.update (initD 1 1 1).adapter_counters ⟨0, by decide⟩
          ((initD 1 1 1).adapter_counters ⟨0, by decide⟩ - 1),
        Function.update (initD 1 1 1).calls ⟨0, by decide⟩
          ((initD 1 1 1).calls ⟨0, by decide⟩ + 1),
        (initD 1 1 1).payloads ++
          [payload_model ((⟨0, by decide⟩ : Fin 1).val + 1)],
        (initD 1 1 1).done⟩ : DCfg 1 1) =
        ⟨fun _ => 0, fun _ => 1, [payload_model 1], fun _ => false⟩ := by
      congr 1 <;> first
        | (funext j; fin_cases j; simp [initD])
        | simp [initD]
    rw [← hcfg]
    exact hstep
  have hexit : DStep 1 1
      ⟨fun _ => 0, fun _ => 1, [payload_model 1], fun _ => false⟩ drainedD := by
    have hstep := DStep.exit (A := 1) (W := 1) ⟨0, by decide⟩
      ⟨fun _ => 0, fun _ => 1, [payload_model 1], fun _ => false⟩ rfl
      (fun _ => le_refl 0)
    have hcfg : (⟨fun _ : Fin 1 => (0 : Int), fun _ : Fin 1 => 1,
        [payload_model 1],
        Function.update (fun _ : Fin 1 => false) ⟨0, by decide⟩ true⟩ : DCfg 1 1) =
        drainedD := by
      congr 1 <;> first
        | (funext j; fin_cases j; simp [drainedD])
        | simp [drainedD]
    rw [← hcfg]
    exact hstep
  exact Relation.ReflTransGen.head hmid
    (Relation.ReflTransGen.head hexit Relation.ReflTransGen.refl)

/-- Witness for C2: a drained single-adapter run and a drained
distributed-random run. -/
theorem C2_no_negative_witness :
    SReach 1 (initS 1 300) (drainedS 300) ∧
    DReach 1 1 (initD 1 1 1) drainedD ∧
    (0 ≤ (drainedS 300).remaining ∧ ∀ a, 0 ≤ drainedD.adapter_counters a) :=
  ⟨SReach_drained 300, DReach_drainedD,
    C2_no_negative_counters (SReach_drained 300) DReach_drainedD⟩

/-- C3: in distributed-random mode each per-adapter counter is initialized to
`T / A` (truncating integer division; `6` for `T = 300`, `A = 50`), and every
terminal reachable state has executed exactly `A * (T / A)` calls — equal to
`T` exactly when `A` divides `T`, and strictly less than `T` otherwise; for
the notebook's `T = 300`, `A = 50` the total is exactly 300. -/
theorem C3_distributed_truncated_total {A W T : Nat} (hA : 0 < A) (hW : 0 < W)
    {d : DCfg A W} (hreach : DReach A W (initD A W T) d)
    (hterm : ∀ i, d.done i = true) :
    (∀ a, (initD A W T).adapter_counters a = ((T / A : Nat) : Int)) ∧
    totalCallsD d = A * (T / A) ∧
    (A ∣ T → totalCallsD d = T) ∧
    (¬ A ∣ T → totalCallsD d < T) ∧
    (300 / 50 = 6) ∧
    (T = 300 → A = 50 → totalCallsD d = 300) := by
  obtain ⟨hsum, hnn, hdz⟩ := DReach_invariant hreach
  have hz : ∀ a, d.adapter_counters a ≤ 0 := hdz ⟨0, hW⟩ (hterm ⟨0, hW⟩)
  have hzero : ∀ a, d.adapter_counters a = 0 :=
    fun a => le_antisymm (hz a) (hnn a)
  have hsz : (∑ a, d.adapter_counters a) = 0 :=
    Finset.sum_eq_zero (fun a _ => hzero a)
  rw [hsz] at hsum
  have hmain : totalCallsD d = A * (T / A) := by omega
  refine ⟨fun _ => rfl, hmain, ?_, ?_, by norm_num, ?_⟩
  · intro hdvd
    rw [hmain, Nat.mul_div_cancel' hdvd]
  · intro hndvd
    have hle : A * (T / A) ≤ T := by
      rw [mul_comm]
      exact Nat.div_mul_le_self T A
    have hne : A * (T / A) ≠ T := by
      intro hcon
      exact hndvd ⟨T / A, hcon.symm⟩
    rw [hmain]
    omega
  · intro hT hA50
    subst hT
    subst hA50
    rw [hmain]

/-- Witness for C3: the drained one-adapter one-worker run of budget 1. -/
theorem C3_distributed_witness :
    (0 : Nat) < 1 ∧
    DReach 1 1 (initD 1 1 1) drainedD ∧
    (∀ i, drainedD.done i = true) ∧
    totalCallsD drainedD = 1 * (1 / 1) :=
  ⟨Nat.one_pos, DReach_drainedD, fun _ => rfl,
    (C3_distributed_truncated_total Nat.one_pos Nat.one_pos DReach_drainedD
      (fun _ => rfl)).2.1⟩

/-! ## Benchmark statistics (`benchmark_scenario` epilogue)

After all threads are joined, the notebook computes
`total_latency = sum([sum(latencies) for latencies in all_latencies])`,
`total_requests_made = sum([len(latencies) for latencies in all_latencies])`,
`average_latency = total_latency / total_requests_made` and
`throughput = total_requests_made / elapsed`.  Latencies are embedded as
rationals; Python's division by a zero count raises `ZeroDivisionError`,
embedded as `none`. -/

/-- The statistics epilogue: `none` models the `ZeroDivisionError` raised
when no call was recorded. -/
def benchmark_stats (all_latencies : List (List ℚ)) (elapsed : ℚ) :
    Option (ℚ × ℚ) :=
  let total_latency := (all_latencies.map List.sum).sum
  let total_requests_made := (all_latencies.map List.length).sum
  if total_requests_made = 0 then none
  else some (total_latency / total_requests_made, total_requests_made / elapsed)

/-- C7: after all workers are joined, the reported mean per-call latency is
the sum of all recorded per-call latencies divided by the total call count —
the computation fails when that count is zero — and the reported throughput
is the total call count divided by the measured wall-clock duration. -/
theorem C7_mean_latency_and_throughput (all_latencies : List (List ℚ))
    (elapsed : ℚ) :
    (all_latencies.flatten.length ≠ 0 →
      benchmark_stats all_latencies elapsed =
        some (all_latencies.flatten.sum / (all_latencies.flatten.length : ℚ),
          (all_latencies.flatten.length : ℚ) / elapsed)) ∧
    (all_latencies.flatten.length = 0 →
      benchmark_stats all_latencies elapsed = none) := by
  have hlen : (all_latencies.map List.length).sum = all_latencies.flatten.length :=
    (List.length_flatten all_latencies).symm
  have hsum : (all_latencies.map List.sum).sum = all_latencies.flatten.sum :=
    List.sum_flatten.symm
  constructor
  · intro hne
    unfold benchmark_stats
    rw [hlen, hsum, if_neg hne]
  · intro hzero
    unfold benchmark_stats
    rw [hlen, if_pos hzero]

/-- Witness for C7 with two worker latency lists. -/
theorem C7_stats_witness :
    ([[1], [2, 3]] : List (List ℚ)).flatten.length ≠ 0 ∧
    benchmark_stats [[1], [2, 3]] 2 =
      some ((([[1], [2, 3]] : List (List ℚ)).flatten.sum /
          (([[1], [2, 3]] : List (List ℚ)).flatten.length : ℚ)),
        ((([[1], [2, 3]] : List (List ℚ)).flatten.length : ℚ) / 2)) :=
  ⟨by decide, (C7_mean_latency_and_throughput [[1], [2, 3]] 2).1 (by decide)⟩

/-! ## Scoped route patching (C6)

To show that patching the real server file alters only the two named route
paths, the file is viewed as an alternating assembly of clean segments and
route occurrences; the patch rewrites each occurrence in place and copies
every clean segment — and hence every other route string — verbatim. -/

/-- A clean segment for pattern `pat`: it contains no occurrence of `pat`,
and no nonempty suffix of it begins an occurrence (no suffix of the segment
is a prefix of `pat`), so no match can start inside the segment, wherever it
is spliced. -/
def segSafe (pat s : List Char) : Prop :=
  ¬ pat <:+: s ∧ ∀ i, i < s.length → ¬ s.drop i <+: pat

/-- Replacement walks through a clean segment without firing: it distributes
over the append. -/
theorem replaceAll_append_of_segSafe {pat : List Char} (rep : List Char) :
    ∀ {s : List Char}, segSafe pat s →
    ∀ y, replaceAll pat rep (s ++ y) = s ++ replaceAll pat rep y := by
  intro s
  induction s with
  | nil =>
    intro _ y
    simp
  | cons c s' ih =>
    intro hsafe y
    obtain ⟨hA, hB⟩ := hsafe
    have hnm : ¬ (pat ≠ [] ∧ pat <+: (c :: (s' ++ y))) := by
      rintro ⟨-, hpre⟩
      by_cases hlen : pat.length ≤ (c :: s').length
      · apply hA
        have h1 : pat = ((c :: s') ++ y).take pat.length :=
          List.prefix_iff_eq_take.mp hpre
        rw [List.take_append_of_le_length hlen] at h1
        rw [h1]
        exact (List.take_prefix pat.length (c :: s')).isInfix
      · push_neg at hlen
        have h1 : pat = ((c :: s') ++ y).take pat.length :=
          List.prefix_iff_eq_take.mp hpre
        have h2 : pat.take (c :: s').length = c :: s' := by
          rw [h1, List.take_take, min_eq_left (Nat.le_of_lt hlen), List.take_left]
        refine hB 0 (by simp) ?_
        rw [List.drop_zero, ← h2]
        exact pat.take_prefix _
    show replaceAll pat rep (c :: (s' ++ y)) = (c :: s') ++ replaceAll pat rep y
    rw [replaceAll, dif_neg hnm]
    show c :: replaceAll pat rep (s' ++ y) = c :: (s' ++ replaceAll pat rep y)
    congr 1
    refine ih ⟨fun h => hA (List.infix_cons h), ?_⟩ y
    intro i hi
    have h3 := hB (i + 1) (by simp only [List.length_cons]; omega)
    simpa using h3

/-- Replacement fires exactly once on a leading occurrence of the pattern. -/
theorem replaceAll_head_match {pat : List Char} (rep : List Char)
    (hpat : pat ≠ []) (y : List Char) :
    replaceAll pat rep (pat ++ y) = rep ++ replaceAll pat rep y := by
  cases pat with
  | nil => exact absurd rfl hpat
  | cons p pt =>
    show replaceAll (p :: pt) rep (p :: (pt ++ y)) =
      rep ++ replaceAll (p :: pt) rep y
    rw [replaceAll, dif_pos ⟨by simp, by
      rw [show p :: (pt ++ y) = (p :: pt) ++ y from rfl]
      exact List.prefix_append _ _⟩]
    congr 1
    rw [show p :: (pt ++ y) = (p :: pt) ++ y from rfl, List.drop_left]

/-- A piece of the wrapped server file: a clean segment, an occurrence of the
health route, or an occurrence of the completions route. -/
inductive RoutePiece
  | seg (s : List Char)
  | health
  | completions

/-- The original server file assembled from its pieces. -/
def assembleRoutes : List RoutePiece → List Char
  | [] => []
  | RoutePiece.seg s :: rest => s ++ assembleRoutes rest
  | RoutePiece.health :: rest => "/health".data ++ assembleRoutes rest
  | RoutePiece.completions :: rest => "/v1/completions".data ++ assembleRoutes rest

/-- The same file with only the two named routes rewritten: every clean
segment is copied verbatim. -/
def patchedRoutes : List RoutePiece → List Char
  | [] => []
  | RoutePiece.seg s :: rest => s ++ patchedRoutes rest
  | RoutePiece.health :: rest => "/ping".data ++ patchedRoutes rest
  | RoutePiece.completions :: rest => "/invocations".data ++ patchedRoutes rest

/-- Effect of the first `sed` substitution on a piece. -/
def afterHealth : RoutePiece → RoutePiece
  | RoutePiece.health => RoutePiece.seg "/ping".data
  | p => p

/-- Effect of the second `sed` substitution on a piece. -/
def afterCompletions : RoutePiece → RoutePiece
  | RoutePiece.completions => RoutePiece.seg "/invocations".data
  | p => p

/-- Safety of a piece for pattern `pat`: route-occurrence pieces are always
safe; segment pieces must be clean. -/
def pieceSafe (pat : List Char) (p : RoutePiece) : Prop :=
  match p with
  | RoutePiece.seg s => segSafe pat s
  | _ => True

instance instSegSafeDecidable (pat s : List Char) : Decidable (segSafe pat s) :=
  inferInstanceAs (Decidable (_ ∧ _))

instance instPieceSafeDecidable (pat : List Char) (p : RoutePiece) :
    Decidable (pieceSafe pat p) :=
  match p with
  | RoutePiece.seg s => inferInstanceAs (Decidable (segSafe pat s))
  | RoutePiece.health => isTrue trivial
  | RoutePiece.completions => isTrue trivial

/-- The first substitution rewrites exactly the health-route pieces. -/
theorem sedHealth_assembleRoutes : ∀ ps : List RoutePiece,
    (∀ p ∈ ps, pieceSafe "/health".data p) →
    sedHealthToPing (assembleRoutes ps) = assembleRoutes (ps.map afterHealth) := by
  intro ps
  induction ps with
  | nil =>
    intro _
    show replaceAll "/health".data "/ping".data [] = []
    rw [replaceAll]
  | cons p rest ih =>
    intro hps
    have ih' := ih (fun q hq => hps q (List.mem_cons_of_mem p hq))
    cases p with
    | seg s =>
      show replaceAll "/health".data "/ping".data (s ++ assembleRoutes rest) =
        s ++ assembleRoutes (rest.map afterHealth)
      rw [replaceAll_append_of_segSafe _ (hps _ (List.mem_cons_self _ _))]
      exact congrArg (s ++ ·) ih'
    | health =>
      show replaceAll "/health".data "/ping".data
          ("/health".data ++ assembleRoutes rest) =
        "/ping".data ++ assembleRoutes (rest.map afterHealth)
      rw [replaceAll_head_match _ (by decide)]
      exact congrArg ("/ping".data ++ ·) ih'
    | completions =>
      show replaceAll "/health".data "/ping".data
          ("/v1/completions".data ++ assembleRoutes rest) =
        "/v1/completions".data ++ assembleRoutes (rest.map afterHealth)
      rw [replaceAll_append_of_segSafe _ (by decide)]
      exact congrArg ("/v1/completions".data ++ ·) ih'

/-- The second substitution rewrites exactly the completions-route pieces
(no health piece remains after the first pass). -/
theorem sedCompletions_assembleRoutes : ∀ ps : List RoutePiece,
    (∀ p ∈ ps, pieceSafe "/v1/completions".data p) →
    RoutePiece.health ∉ ps →
    sedCompletionsToInvocations (assembleRoutes ps) =
      assembleRoutes (ps.map afterCompletions) := by
  intro ps
  induction ps with
  | nil =>
    intro _ _
    show replaceAll "/v1/completions".data "/invocations".data [] = []
    rw [replaceAll]
  | cons p rest ih =>
    intro hps hh
    have ih' := ih (fun q hq => hps q (List.mem_cons_of_mem p hq))
      (fun hq => hh (List.mem_cons_of_mem p hq))
    cases p with
    | seg s =>
      show replaceAll "/v1/completions".data "/invocations".data
          (s ++ assembleRoutes rest) =
        s ++ assembleRoutes (rest.map afterCompletions)
      rw [replaceAll_append_of_segSafe _ (hps _ (List.mem_cons_self _ _))]
      exact congrArg (s ++ ·) ih'
    | health => exact absurd (List.mem_cons_self _ _) hh
    | completions =>
      show replaceAll "/v1/completions".data "/invocations".data
          ("/v1/completions".data ++ assembleRoutes rest) =
        "/invocations".data ++ assembleRoutes (rest.map afterCompletions)
      rw [replaceAll_head_match _ (by decide)]
      exact congrArg ("/invocations".data ++ ·) ih'

/-- Composing the two per-piece rewrites gives the patched assembly. -/
theorem assembleRoutes_after_both : ∀ ps : List RoutePiece,
    assembleRoutes ((ps.map afterHealth).map afterCompletions) =
      patchedRoutes ps := by
  intro ps
  induction ps with
  | nil => rfl
  | cons p rest ih =>
    cases p with
    | seg s => exact congrArg (s ++ ·) ih
    | health => exact congrArg ("/ping".data ++ ·) ih
    | completions => exact congrArg ("/invocations".data ++ ·) ih

/-- Safety for the second pass transfers across the first pass: original
segments stay, and the inserted `/ping` segments are safe for the
completions pattern. -/
theorem pieceSafe_map_afterHealth {ps : List RoutePiece}
    (hps : ∀ p ∈ ps, pieceSafe "/v1/completions".data p) :
    ∀ p ∈ ps.map afterHealth, pieceSafe "/v1/completions".data p := by
  intro p hp
  obtain ⟨q, hq, rfl⟩ := List.mem_map.mp hp
  cases q with
  | seg s => exact hps _ hq
  | health => exact (by decide : segSafe "/v1/completions".data "/ping".data)
  | completions => trivial

theorem health_not_mem_map_afterHealth (ps : List RoutePiece) :
    RoutePiece.health ∉ ps.map afterHealth := by
  intro hmem
  obtain ⟨q, -, heq⟩ := List.mem_map.mp hmem
  cases q <;> simp [afterHealth] at heq

/-- C6: the container adaptation layer's two path substitutions
(`/health` to `/ping`, `/v1/completions` to `/invocations`, applied as global
string replacement over the server source file) are idempotent — applying
them a second time changes nothing — and scoped: on a server file assembled
from clean segments and occurrences of the two named routes, the patch
rewrites exactly those occurrences and copies every clean segment — hence
every other route string in the file — verbatim; in particular a file with
no occurrence of either route is left entirely unchanged. -/
theorem C6_route_patch_idempotent_and_scoped (file : List Char)
    (ps : List RoutePiece)
    (hsafe1 : ∀ p ∈ ps, pieceSafe "/health".data p)
    (hsafe2 : ∀ p ∈ ps, pieceSafe "/v1/completions".data p) :
    sagemakerRoutePatch (sagemakerRoutePatch file) = sagemakerRoutePatch file ∧
    sagemakerRoutePatch (assembleRoutes ps) = patchedRoutes ps ∧
    (¬ "/health".data <:+: file → ¬ "/v1/completions".data <:+: file →
      sagemakerRoutePatch file = file) := by
  refine ⟨?_, ?_, ?_⟩
  · have h1 : ¬ "/health".data <:+: sagemakerRoutePatch file :=
      health_free_preserved_by_sedCompletions _ (health_free_after_sedHealth file)
    have h2 : ¬ "/v1/completions".data <:+: sagemakerRoutePatch file :=
      completions_free_after_sedCompletions _
    show sedCompletionsToInvocations (sedHealthToPing (sagemakerRoutePatch file)) =
      sagemakerRoutePatch file
    rw [show sedHealthToPing (sagemakerRoutePatch file) = sagemakerRoutePatch file from
      replaceAll_of_not_infix _ h1]
    exact replaceAll_of_not_infix _ h2
  · show sedCompletionsToInvocations (sedHealthToPing (assembleRoutes ps)) =
      patchedRoutes ps
    rw [sedHealth_assembleRoutes ps hsafe1,
      sedCompletions_assembleRoutes (ps.map afterHealth)
        (pieceSafe_map_afterHealth hsafe2)
        (health_not_mem_map_afterHealth ps),
      assembleRoutes_after_both]
  · intro hh hc
    show sedCompletionsToInvocations (sedHealthToPing file) = file
    rw [show sedHealthToPing file = file from replaceAll_of_not_infix _ hh]
    exact replaceAll_of_not_infix _ hc

set_option maxRecDepth 8000 in
/-- Witness for C6 on a miniature server file that contains both named routes
and an unrelated route string `/v1/models`: the patch rewrites the two named
routes and leaves everything else, including `/v1/models`, in place. -/
theorem C6_route_patch_witness :
    (∀ p ∈ [RoutePiece.seg "GET ".data, RoutePiece.health,
        RoutePiece.seg " GET /v1/models POST ".data, RoutePiece.completions,
        RoutePiece.seg " END".data], pieceSafe "/health".data p) ∧
    (∀ p ∈ [RoutePiece.seg "GET ".data, RoutePiece.health,
        RoutePiece.seg " GET /v1/models POST ".data, RoutePiece.completions,
        RoutePiece.seg " END".data], pieceSafe "/v1/completions".data p) ∧
    assembleRoutes [RoutePiece.seg "GET ".data, RoutePiece.health,
        RoutePiece.seg " GET /v1/models POST ".data, RoutePiece.completions,
        RoutePiece.seg " END".data] =
      "GET /health GET /v1/models POST /v1/completions END".data ∧
    patchedRoutes [RoutePiece.seg "GET ".data, RoutePiece.health,
        RoutePiece.seg " GET /v1/models POST ".data, RoutePiece.completions,
        RoutePiece.seg " END".data] =
      "GET /ping GET /v1/models POST /invocations END".data ∧
    sagemakerRoutePatch (assembleRoutes [RoutePiece.seg "GET ".data,
        RoutePiece.health, RoutePiece.seg " GET /v1/models POST ".data,
        RoutePiece.completions, RoutePiece.seg " END".data]) =
      patchedRoutes [RoutePiece.seg "GET ".data, RoutePiece.health,
        RoutePiece.seg " GET /v1/models POST ".data, RoutePiece.completions,
        RoutePiece.seg " END".data] :=
  ⟨by decide, by decide, by decide, by decide,
    (C6_route_patch_idempotent_and_scoped []
      [RoutePiece.seg "GET ".data, RoutePiece.health,
        RoutePiece.seg " GET /v1/models POST ".data, RoutePiece.completions,
        RoutePiece.seg " END".data] (by decide) (by decide)).2.1⟩
